import Mathlib

/-!
Shallow embedding of the Huffman coder in src/Huffman.h and src/Huffman.cpp.

Bytes are modelled as natural numbers below 256, the int16 child indices of a
tree node as Int with the sentinel -1, and every place where the C++ code has
undefined behaviour (indexing a vector out of bounds, front or back of an
empty container) returns none, so that totality claims are statable.
-/

set_option maxRecDepth 8192

namespace Huffman

/-- Node of the Huffman tree (src/Huffman.h, struct Node): two int16 child
indices, modelled as Int with the sentinel -1 meaning no child, and the byte
value carried by a leaf. -/
structure Node where
  left : Int
  right : Int
  value : Nat
deriving DecidableEq

/-- Node::isLeaf (src/Huffman.h): a node is a leaf iff both children are the
sentinel -1. -/
def Node.isLeaf (n : Node) : Bool :=
  n.left == -1 && n.right == -1

/-- NodeWithCount (src/Huffman.cpp): a node bundled with its count, used only
while building the tree. -/
structure NodeWithCount where
  node : Node
  count : Nat
deriving DecidableEq

/-- count_bytes (src/Huffman.cpp): the occurrence count of every byte value.
The loop incrementing counts[ch] is modelled as a fold updating a count
function. -/
def count_bytes (bytes : List Nat) : Nat → Nat :=
  bytes.foldl (fun counts ch => fun b => if b = ch then counts b + 1 else counts b)
    (fun _ => 0)

/-- make_leaf_nodes (src/Huffman.cpp): one leaf node per byte value with a
nonzero count, in increasing byte order (the loop over i = 0..255). -/
def make_leaf_nodes (counts : Nat → Nat) : List NodeWithCount :=
  ((List.range 256).filter (fun i => counts i != 0)).map
    (fun i => ⟨⟨-1, -1, i⟩, counts i⟩)

/-- The count the queue comparator reads for an index, that is
nodes_with_size[i].count in src/Huffman.cpp. -/
def arenaCount (arena : List NodeWithCount) (i : Nat) : Nat :=
  ((arena[i]?).map NodeWithCount.count).getD 0

/-- The std::priority_queue of arena indices with the reversed comparator
(src/Huffman.cpp), modelled by its contract: the popped element has minimal
count. popMin removes the earliest element of minimal count, a concrete
deterministic tie rule; the spec leaves the tie rule implementation
defined. -/
def popMin (cnt : Nat → Nat) : List Nat → Option (Nat × List Nat)
  | [] => none
  | x :: xs =>
    match popMin cnt xs with
    | none => some (x, xs)
    | some (m, rest) => if cnt x ≤ cnt m then some (x, xs) else some (m, x :: rest)

/-- The while loop of Encoded::init_tree (src/Huffman.cpp): repeatedly pop the
two least-count indices back1 and back2, append the merged internal node with
left = back1, right = back2 and the summed count, then push its index. The
C++ loop runs until the queue has one element left and every iteration
shrinks the queue by one, so fuel = initial queue length always suffices. -/
def merge_loop : Nat → List NodeWithCount → List Nat → List NodeWithCount
  | 0, arena, _ => arena
  | fuel + 1, arena, q =>
    if q.length ≤ 1 then arena
    else
      match popMin (arenaCount arena) q with
      | none => arena
      | some (back1, q1) =>
        match popMin (arenaCount arena) q1 with
        | none => arena
        | some (back2, q2) =>
          merge_loop fuel
            (arena ++ [⟨⟨(back1 : Int), (back2 : Int), 0⟩,
              arenaCount arena back1 + arenaCount arena back2⟩])
            (q2 ++ [arena.length])

/-- Encoded::init_tree (src/Huffman.cpp): build the node arena. The switch on
queue.size() handles 0 and 1 distinct byte values directly; in the 1 case the
C++ code reads input_data.front(), undefined on an empty input, modelled by
head?. -/
def init_tree (input : List Nat) : Option (List Node) :=
  let nwc := make_leaf_nodes (count_bytes input)
  let q := (List.range nwc.length).filter (fun i => arenaCount nwc i != 0)
  if q.length = 0 then some [⟨-1, -1, 0⟩]
  else if q.length = 1 then
    input.head?.map (fun v => [⟨-1, -1, v⟩, ⟨-1, 0, 0⟩])
  else
    some ((merge_loop q.length nwc q).map NodeWithCount.node)

/-- CharDictT (src/Huffman.cpp): the array of 256 codeword strings, modelled
as a function from byte value to bit list; the char 0 in a key is the bit
false (go left) and the char 1 is true (go right). -/
abbrev CharDictT : Type := Nat → List Bool

/-- Writing one entry of the dictionary, dict[elm.value] = key. -/
def setDict (d : CharDictT) (v : Nat) (key : List Bool) : CharDictT :=
  fun b => if b = v then key else d b

/-- init_dict (src/Huffman.cpp): depth-first walk of the tree recording the
accumulated path at every leaf. The C++ push_back / back mutation of the key
is modelled by passing key ++ [false] to the left child and key ++ [true] to
the right child, which the balanced push and pop make equivalent. The C++
recursion is unbounded; the fuel argument exists only for Lean totality and
never runs out on arenas produced by init_tree, whose children always have
smaller indices than their parent. -/
def init_dict (fuel : Nat) (nodes : List Node) (root : Int) (dict : CharDictT)
    (key : List Bool) : CharDictT :=
  match fuel with
  | 0 => dict
  | fuel + 1 =>
    if root < 0 then dict
    else
      match nodes[root.toNat]? with
      | none => dict
      | some elm =>
        if elm.isLeaf then setDict dict elm.value key
        else
          init_dict fuel nodes elm.right
            (init_dict fuel nodes elm.left dict (key ++ [false]))
            (key ++ [true])

/-- The three argument init_dict overload (src/Huffman.cpp) exactly as called
from init_binary_data: empty key, root = root_index() = nodes.size() - 1. -/
def code_table (nodes : List Node) : CharDictT :=
  init_dict nodes.length nodes ((nodes.length - 1 : Nat) : Int) (fun _ => []) []

/-- The bit sequence written by the two nested loops of the fill pass in
init_binary_data: for every input byte in order, the bits of its codeword. -/
def concat_codes (dict : CharDictT) : List Nat → List Bool
  | [] => []
  | ch :: rest => dict ch ++ concat_codes dict rest

/-- The sequential fill pass, binary_data_[bit_iter++] = bit: positional
writes into the pre-sized vector; a write past the end is undefined behaviour
in C++, modelled as none. -/
def fill_bits : List Bool → Nat → List Bool → Option (List Bool)
  | arr, _, [] => some arr
  | arr, pos, b :: bs =>
    if pos < arr.length then fill_bits (arr.set pos b) (pos + 1) bs else none

/-- Encoded::init_binary_data (src/Huffman.cpp): derive the dictionary, size
the output with the std::reduce over per-byte codeword lengths (the BinOp
overload family adds codeword lengths, so every reduction order yields this
sum), then run the sequential fill pass. -/
def init_binary_data (nodes : List Node) (input : List Nat) : Option (List Bool) :=
  let dict := code_table nodes
  let size := (input.map (fun ch => (dict ch).length)).sum
  fill_bits (List.replicate size false) 0 (concat_codes dict input)

/-- Encoded (src/Huffman.h): the compressed artifact owning the bit sequence
and the node arena. -/
structure Encoded where
  binary_data_ : List Bool
  nodes_ : List Node
deriving DecidableEq

/-- Encoded::root (src/Huffman.h): the last arena element; back() on an empty
vector is undefined behaviour, modelled as none. -/
def Encoded.root (e : Encoded) : Option Node :=
  e.nodes_.getLast?

/-- The default constructor Encoded() (src/Huffman.h): both members empty. -/
def defaultEncoded : Encoded := ⟨[], []⟩

/-- Encoded::encode over a byte span (src/Huffman.cpp): init_tree, then
init_binary_data, bundled into the artifact. -/
def Encoded.encode (input : List Nat) : Option Encoded := do
  let nodes ← init_tree input
  let bd ← init_binary_data nodes input
  pure ⟨bd, nodes⟩

/-- The loop of Encoded::decode (src/Huffman.cpp): from the current node go
left on bit false and right on bit true; on reaching a leaf emit its value
and reset to the root. Indexing the node vector with the sentinel -1 or out
of bounds is undefined behaviour, modelled as none. -/
def decodeLoop (nodes : List Node) (rootN : Node) : Node → List Bool → Option (List Nat)
  | _, [] => some []
  | node, b :: bs =>
    let idx : Int := if b then node.right else node.left
    if idx < 0 then none
    else
      match nodes[idx.toNat]? with
      | none => none
      | some n =>
        if n.isLeaf then (decodeLoop nodes rootN rootN bs).map (fun r => n.value :: r)
        else decodeLoop nodes rootN n bs

/-- Encoded::decode (src/Huffman.cpp): start at the root and run the walk
over the stored bit sequence. -/
def Encoded.decode (e : Encoded) : Option (List Nat) := do
  let node ← e.root
  decodeLoop e.nodes_ node node e.binary_data_

/-- Encoded::encode(void const*, size_t) (src/Huffman.cpp): forwards to the
uint8 span overload over the same bytes. -/
def Encoded.encode_raw (input : List Nat) : Option Encoded :=
  Encoded.encode input

/-- Encoded::encode(std::span of std::byte) (src/Huffman.cpp): forwards
through the raw pointer overload. -/
def Encoded.encode_byte_span (input : List Nat) : Option Encoded :=
  Encoded.encode_raw input

/-- Encoded::encode(std::string_view) (src/Huffman.cpp): the chars, possibly
signed, are reinterpreted as unsigned bytes, that is taken mod 256. -/
def Encoded.encode_string_view (chars : List Int) : Option Encoded :=
  Encoded.encode_raw (chars.map (fun c => (c % 256).toNat))

/-- The number of distinct byte values present in the input, the k of the
spec. -/
def numDistinct (input : List Nat) : Nat :=
  ((List.range 256).filter (fun b => count_bytes input b != 0)).length

/-- Codeword p is a prefix of codeword q. -/
def PrefixOf (p q : List Bool) : Prop := ∃ t, p ++ t = q

/-- Following the bit path p from arena index i reaches a leaf carrying the
value v, stepping only through valid indices, exactly as the decode walk
does. -/
inductive PathTo (nodes : List Node) : Nat → List Bool → Nat → Prop where
  | leaf : ∀ i v n, nodes[i]? = some n → n.isLeaf = true → n.value = v →
      PathTo nodes i [] v
  | step : ∀ i b p v n, nodes[i]? = some n → n.isLeaf = false →
      0 ≤ (if b then n.right else n.left) →
      PathTo nodes (if b then n.right else n.left).toNat p v →
      PathTo nodes i (b :: p) v

/-- Arena well-formedness: each child of an internal node is either the
sentinel -1 or a valid index smaller than the parent index. The arena is
built bottom-up, children before parents, so init_tree guarantees this. -/
def WFArena (nodes : List Node) : Prop :=
  ∀ (i : Nat) (n : Node), nodes[i]? = some n → n.isLeaf = false →
    (n.left = -1 ∨ (0 ≤ n.left ∧ n.left.toNat < i)) ∧
    (n.right = -1 ∨ (0 ≤ n.right ∧ n.right.toNat < i))

/-- A bit sequence that keeps the decode walk strictly inside the tree: every
node it reaches is a valid internal node, so the sequence is an incomplete
codeword that ends mid path. -/
def midWalk (nodes : List Node) : Node → List Bool → Bool
  | _, [] => true
  | node, b :: bs =>
    let idx : Int := if b then node.right else node.left
    if idx < 0 then false
    else
      match nodes[idx.toNat]? with
      | none => false
      | some n => !n.isLeaf && midWalk nodes n bs

/-! ### List index helpers -/

theorem getElem?_some_lt {α : Type} {l : List α} {i : Nat} {a : α}
    (h : l[i]? = some a) : i < l.length := by
  by_contra hlt
  rw [List.getElem?_eq_none (by omega)] at h
  exact Option.noConfusion h

theorem getElem?_append_of_some {α : Type} {l1 l2 : List α} {i : Nat} {a : α}
    (h : l1[i]? = some a) : (l1 ++ l2)[i]? = some a := by
  rw [List.getElem?_append, if_pos (getElem?_some_lt h)]
  exact h

theorem mem_of_getElem?_some {α : Type} {l : List α} {i : Nat} {a : α}
    (h : l[i]? = some a) : a ∈ l := by
  induction l generalizing i with
  | nil => simp at h
  | cons x xs ih =>
    cases i with
    | zero => simp at h; simp [h]
    | succ j =>
      simp only [List.getElem?_cons_succ] at h
      exact List.mem_cons_of_mem x (ih h)

theorem exists_getElem?_of_mem {α : Type} {l : List α} {a : α} (h : a ∈ l) :
    ∃ i : Nat, l[i]? = some a := by
  induction l with
  | nil => simp at h
  | cons x xs ih =>
    rcases List.mem_cons.mp h with h1 | h2
    · exact ⟨0, by simp [h1]⟩
    · obtain ⟨i, hi⟩ := ih h2
      exact ⟨i + 1, by simpa using hi⟩

theorem exists_getElem?_of_lt {α : Type} {l : List α} {i : Nat} (h : i < l.length) :
    ∃ a, l[i]? = some a := by
  induction l generalizing i with
  | nil => simp at h
  | cons x xs ih =>
    cases i with
    | zero => exact ⟨x, by simp⟩
    | succ j =>
      obtain ⟨a, ha⟩ := ih (show j < xs.length by simp at h; omega)
      exact ⟨a, by simpa using ha⟩

theorem getElem?_concat_self {α : Type} (l : List α) (x : α) :
    (l ++ [x])[l.length]? = some x := by
  induction l with
  | nil => rfl
  | cons y ys ih => simpa using ih

/-! ### count_bytes -/

theorem count_bytes_foldl (bytes : List Nat) (f : Nat → Nat) (b : Nat) :
    bytes.foldl (fun counts ch => fun x => if x = ch then counts x + 1 else counts x) f b
      = f b + bytes.count b := by
  induction bytes generalizing f with
  | nil => simp
  | cons x xs ih =>
    simp only [List.foldl_cons, ih]
    by_cases h : b = x <;> simp [List.count_cons, h] <;> omega

theorem count_bytes_eq_count (bytes : List Nat) (b : Nat) :
    count_bytes bytes b = bytes.count b := by
  have h := count_bytes_foldl bytes (fun _ => 0) b
  simpa [count_bytes] using h

/-! ### popMin: the priority queue pops an element of minimal count -/

theorem popMin_eq_none {cnt : Nat → Nat} {q : List Nat} :
    popMin cnt q = none ↔ q = [] := by
  constructor
  · intro h
    cases q with
    | nil => rfl
    | cons x xs =>
      simp only [popMin] at h
      cases hxs : popMin cnt xs with
      | none => rw [hxs] at h; simp at h
      | some pr =>
        obtain ⟨m, rest⟩ := pr
        rw [hxs] at h
        by_cases hc : cnt x ≤ cnt m <;> simp [hc] at h
  · intro h; subst h; rfl

theorem popMin_perm {cnt : Nat → Nat} {q : List Nat} {m : Nat} {rest : List Nat}
    (h : popMin cnt q = some (m, rest)) : q.Perm (m :: rest) := by
  induction q generalizing m rest with
  | nil => simp [popMin] at h
  | cons x xs ih =>
    simp only [popMin] at h
    cases hxs : popMin cnt xs with
    | none =>
      rw [hxs] at h
      have hx : xs = [] := popMin_eq_none.mp hxs
      subst hx
      simp at h
      obtain ⟨h1, h2⟩ := h
      subst h1; subst h2
      exact List.Perm.refl _
    | some pr =>
      obtain ⟨m1, rest1⟩ := pr
      rw [hxs] at h
      by_cases hc : cnt x ≤ cnt m1
      · simp [hc] at h
        obtain ⟨h1, h2⟩ := h; subst h1; subst h2
        exact List.Perm.refl _
      · simp [hc] at h
        obtain ⟨h1, h2⟩ := h; subst h1; subst h2
        exact (List.Perm.cons x (ih hxs)).trans (List.Perm.swap m1 x rest1)

theorem popMin_min {cnt : Nat → Nat} {q : List Nat} {m : Nat} {rest : List Nat}
    (h : popMin cnt q = some (m, rest)) : ∀ y ∈ q, cnt m ≤ cnt y := by
  induction q generalizing m rest with
  | nil => simp [popMin] at h
  | cons x xs ih =>
    simp only [popMin] at h
    cases hxs : popMin cnt xs with
    | none =>
      rw [hxs] at h
      have hx : xs = [] := popMin_eq_none.mp hxs
      subst hx
      simp at h
      obtain ⟨h1, _⟩ := h; subst h1
      intro y hy
      simp at hy; subst hy
      exact Nat.le_refl _
    | some pr =>
      obtain ⟨m1, rest1⟩ := pr
      rw [hxs] at h
      by_cases hc : cnt x ≤ cnt m1
      · simp [hc] at h
        obtain ⟨h1, _⟩ := h; subst h1
        intro y hy
        rcases List.mem_cons.mp hy with h2 | h2
        · subst h2; exact Nat.le_refl _
        · exact Nat.le_trans hc (ih hxs _ h2)
      · simp [hc] at h
        obtain ⟨h1, _⟩ := h; subst h1
        intro y hy
        rcases List.mem_cons.mp hy with h2 | h2
        · subst h2; omega
        · exact ih hxs _ h2

/-! ### PathTo basics -/

theorem pathTo_mono {nodes ext : List Node} {i : Nat} {p : List Bool} {v : Nat}
    (h : PathTo nodes i p v) : PathTo (nodes ++ ext) i p v := by
  induction h with
  | leaf i v n hsome hleaf hval =>
    exact PathTo.leaf i v n (getElem?_append_of_some hsome) hleaf hval
  | step i b p v n hsome hleaf hc _ ih =>
    exact PathTo.step i b p v n (getElem?_append_of_some hsome) hleaf hc ih

theorem pathTo_lookup {nodes : List Node} {i : Nat} {p : List Bool} {v : Nat}
    (h : PathTo nodes i p v) : ∃ n, nodes[i]? = some n := by
  cases h with
  | leaf i v n hsome _ _ => exact ⟨n, hsome⟩
  | step i b p v n hsome _ _ _ => exact ⟨n, hsome⟩

theorem pathTo_det {nodes : List Node} {i : Nat} {p : List Bool} {v w : Nat}
    (h1 : PathTo nodes i p v) (h2 : PathTo nodes i p w) : v = w := by
  induction h1 generalizing w with
  | leaf i v n hsome hleaf hval =>
    cases h2 with
    | leaf _ _ n2 hsome2 hleaf2 hval2 =>
      rw [hsome] at hsome2
      rw [← hval, ← hval2, Option.some.inj hsome2]
  | step i b p v n hsome hleaf hc hrec ih =>
    cases h2 with
    | step _ _ _ _ n2 hsome2 hleaf2 hc2 hrec2 =>
      rw [hsome] at hsome2
      have hn : n = n2 := Option.some.inj hsome2
      subst hn
      exact ih hrec2

theorem pathTo_no_ext {nodes : List Node} {i : Nat} {p q : List Bool} {v w : Nat}
    (h1 : PathTo nodes i p v) (h2 : PathTo nodes i (p ++ q) w) : q = [] := by
  induction h1 generalizing w with
  | leaf i v n hsome hleaf hval =>
    cases q with
    | nil => rfl
    | cons b bs =>
      cases h2 with
      | step _ _ _ _ n2 hsome2 hleaf2 _ _ =>
        rw [hsome] at hsome2
        have hn : n = n2 := Option.some.inj hsome2
        subst hn
        rw [hleaf] at hleaf2
        exact Bool.noConfusion hleaf2
  | step i b p v n hsome hleaf hc hrec ih =>
    cases h2 with
    | step _ _ _ _ n2 hsome2 hleaf2 hc2 hrec2 =>
      rw [hsome] at hsome2
      have hn : n = n2 := Option.some.inj hsome2
      subst hn
      exact ih hrec2

/-! ### The fill pass -/

theorem set_append_cons (pre : List Bool) (x b : Bool) (rest : List Bool) :
    (pre ++ x :: rest).set pre.length b = pre ++ b :: rest := by
  induction pre with
  | nil => rfl
  | cons y ys ih => simp [List.set, ih]

theorem fill_bits_spec (bits : List Bool) :
    ∀ (pre rest : List Bool), rest.length = bits.length →
      fill_bits (pre ++ rest) pre.length bits = some (pre ++ bits) := by
  induction bits with
  | nil =>
    intro pre rest h
    have hr : rest = [] := List.length_eq_zero.mp h
    subst hr
    simp [fill_bits]
  | cons b bs ih =>
    intro pre rest h
    cases rest with
    | nil => simp at h
    | cons x rest1 =>
      simp only [fill_bits]
      have hlt : pre.length < (pre ++ x :: rest1).length := by
        simp [List.length_append]
      rw [if_pos hlt, set_append_cons]
      have h2 : rest1.length = bs.length := by simp at h; omega
      have hh := ih (pre ++ [b]) rest1 h2
      simpa [List.append_assoc] using hh

theorem concat_codes_length (dict : CharDictT) (input : List Nat) :
    (concat_codes dict input).length = (input.map (fun ch => (dict ch).length)).sum := by
  induction input with
  | nil => rfl
  | cons x xs ih => simp [concat_codes, ih]

theorem init_binary_data_eq (nodes : List Node) (input : List Nat) :
    init_binary_data nodes input = some (concat_codes (code_table nodes) input) := by
  unfold init_binary_data
  have h := fill_bits_spec (concat_codes (code_table nodes) input) []
    (List.replicate ((input.map (fun ch => ((code_table nodes) ch).length)).sum) false)
    (by simp [concat_codes_length])
  simpa using h

theorem pathTo_nil_leaf {nodes : List Node} {i : Nat} {v : Nat}
    (h : PathTo nodes i [] v) :
    ∃ n, nodes[i]? = some n ∧ n.isLeaf = true ∧ n.value = v := by
  cases h with
  | leaf _ _ n hget hleaf hval => exact ⟨n, hget, hleaf, hval⟩

theorem pathTo_cons_not_leaf {nodes : List Node} {i : Nat} {b : Bool} {p : List Bool}
    {v : Nat} (h : PathTo nodes i (b :: p) v) :
    ∃ n, nodes[i]? = some n ∧ n.isLeaf = false := by
  cases h with
  | step _ _ _ _ n hget hleaf _ _ => exact ⟨n, hget, hleaf⟩

/-! ### init_dict: soundness and completeness of the recorded codewords -/

theorem init_dict_sound (fuel : Nat) :
    ∀ (nodes : List Node) (root : Int) (dict : CharDictT) (key : List Bool) (s : Nat),
      init_dict fuel nodes root dict key s = dict s ∨
      ∃ q, (0 ≤ root ∧ PathTo nodes root.toNat q s) ∧
        init_dict fuel nodes root dict key s = key ++ q := by
  induction fuel with
  | zero => intro nodes root dict key s; exact Or.inl rfl
  | succ fuel ih =>
    intro nodes root dict key s
    simp only [init_dict]
    by_cases hneg : root < 0
    · rw [if_pos hneg]; exact Or.inl rfl
    · rw [if_neg hneg]
      cases hget : nodes[root.toNat]? with
      | none => exact Or.inl rfl
      | some elm =>
        simp only []
        by_cases hleaf : elm.isLeaf
        · rw [if_pos hleaf]
          by_cases hs : s = elm.value
          · right
            refine ⟨[], ⟨by omega, ?_⟩, ?_⟩
            · exact PathTo.leaf _ _ elm hget hleaf hs.symm
            · simp [setDict, hs]
          · left; simp [setDict, hs]
        · rw [if_neg hleaf]
          rcases ih nodes elm.right
              (init_dict fuel nodes elm.left dict (key ++ [false])) (key ++ [true]) s with
            h2 | ⟨q, ⟨hr0, hpr⟩, heq⟩
          · rw [h2]
            rcases ih nodes elm.left dict (key ++ [false]) s with
              h1 | ⟨q, ⟨hl0, hpl⟩, heq1⟩
            · left; exact h1
            · right
              refine ⟨false :: q, ⟨by omega, ?_⟩, by rw [heq1]; simp⟩
              exact PathTo.step _ false _ _ elm hget (by simpa using hleaf)
                (by simpa using hl0) (by simpa using hpl)
          · right
            refine ⟨true :: q, ⟨by omega, ?_⟩, by rw [heq]; simp⟩
            exact PathTo.step _ true _ _ elm hget (by simpa using hleaf)
              (by simpa using hr0) (by simpa using hpr)

theorem init_dict_complete (fuel : Nat) :
    ∀ (nodes : List Node) (root : Int) (dict : CharDictT) (key : List Bool)
      (p : List Bool) (s : Nat),
      WFArena nodes → 0 ≤ root → root.toNat < fuel →
      PathTo nodes root.toNat p s →
      ∃ q, PathTo nodes root.toNat q s ∧
        init_dict fuel nodes root dict key s = key ++ q := by
  induction fuel with
  | zero => intro nodes root dict key p s _ _ hf _; omega
  | succ fuel ih =>
    intro nodes root dict key p s hwf h0 hf hp
    simp only [init_dict]
    rw [if_neg (by omega : ¬ root < 0)]
    cases p with
    | nil =>
      obtain ⟨n, hget, hleaf, hval⟩ := pathTo_nil_leaf hp
      simp only [hget, hleaf, if_true]
      refine ⟨[], hp, ?_⟩
      simp [setDict, hval.symm]
    | cons b p1 =>
      cases hp with
      | step _ _ _ _ n hget hleaf hc hrec =>
        simp only [hget, hleaf, Bool.false_eq_true, if_false]
        have hbounds := hwf root.toNat n hget hleaf
        cases b with
        | true =>
          simp only [if_true] at hc hrec
          have hlt : n.right.toNat < root.toNat := by
            rcases hbounds.2 with hr | ⟨_, hr⟩
            · omega
            · exact hr
          obtain ⟨q, hq, heq⟩ := ih nodes n.right
            (init_dict fuel nodes n.left dict (key ++ [false])) (key ++ [true]) p1 s
            hwf hc (by omega) hrec
          refine ⟨true :: q, ?_, by rw [heq]; simp⟩
          exact PathTo.step _ true _ _ n hget hleaf (by simpa using hc) (by simpa using hq)
        | false =>
          simp only [Bool.false_eq_true, if_false] at hc hrec
          have hlt : n.left.toNat < root.toNat := by
            rcases hbounds.1 with hl | ⟨_, hl⟩
            · omega
            · exact hl
          obtain ⟨q, hq, heq1⟩ := ih nodes n.left dict (key ++ [false]) p1 s
            hwf hc (by omega) hrec
          rcases init_dict_sound fuel nodes n.right
              (init_dict fuel nodes n.left dict (key ++ [false])) (key ++ [true]) s with
            h2 | ⟨q2, ⟨hr0, hpr⟩, heq2⟩
          · rw [h2, heq1]
            refine ⟨false :: q, ?_, by simp⟩
            exact PathTo.step _ false _ _ n hget hleaf (by simpa using hc) (by simpa using hq)
          · rw [heq2]
            refine ⟨true :: q2, ?_, by simp⟩
            exact PathTo.step _ true _ _ n hget hleaf (by simpa using hr0) (by simpa using hpr)

/-! ### The decode walk follows recorded paths -/

theorem decodeLoop_path {nodes : List Node} {rootN : Node} :
    ∀ (p : List Bool) (i : Nat) (cur : Node) (v : Nat) (rest : List Bool),
      nodes[i]? = some cur → cur.isLeaf = false → PathTo nodes i p v →
      decodeLoop nodes rootN cur (p ++ rest) =
        (decodeLoop nodes rootN rootN rest).map (fun r => v :: r) := by
  intro p
  induction p with
  | nil =>
    intro i cur v rest hget hleaf hp
    obtain ⟨n, hget2, hleaf2, _⟩ := pathTo_nil_leaf hp
    rw [hget] at hget2
    rw [← Option.some.inj hget2] at hleaf2
    rw [hleaf2] at hleaf
    exact Bool.noConfusion hleaf
  | cons b bs ih =>
    intro i cur v rest hget hleaf hp
    cases hp with
    | step _ _ _ _ n hget2 hleaf2 hc hrec =>
      rw [hget] at hget2
      have hn : cur = n := Option.some.inj hget2
      subst hn
      simp only [List.cons_append, decodeLoop]
      rw [if_neg (show ¬ (if b then cur.right else cur.left) < 0 by omega)]
      cases bs with
      | nil =>
        obtain ⟨m, hm, hmleaf, hmval⟩ := pathTo_nil_leaf hrec
        simp [hm, hmleaf, hmval]
      | cons b2 bs2 =>
        obtain ⟨m, hm, hmleaf⟩ := pathTo_cons_not_leaf hrec
        simp only [hm, hmleaf, Bool.false_eq_true, if_false]
        exact ih _ m v rest hm hmleaf hrec

theorem decodeLoop_concat {nodes : List Node} {rootN : Node} {rootIdx : Nat}
    (hget : nodes[rootIdx]? = some rootN) (hleaf : rootN.isLeaf = false)
    {dict : CharDictT} :
    ∀ (input : List Nat) (extra : List Bool),
      (∀ x ∈ input, ∃ p, PathTo nodes rootIdx p x ∧ dict x = p) →
      decodeLoop nodes rootN rootN (concat_codes dict input ++ extra) =
        (decodeLoop nodes rootN rootN extra).map (fun r => input ++ r) := by
  intro input
  induction input with
  | nil =>
    intro extra _
    simp only [concat_codes, List.nil_append]
    cases decodeLoop nodes rootN rootN extra <;> simp
  | cons x xs ih =>
    intro extra hall
    obtain ⟨p, hp, hdict⟩ := hall x (List.mem_cons_self x xs)
    have hxs : ∀ y ∈ xs, ∃ p, PathTo nodes rootIdx p y ∧ dict y = p :=
      fun y hy => hall y (List.mem_cons_of_mem x hy)
    simp only [concat_codes, hdict, List.append_assoc]
    rw [decodeLoop_path p rootIdx rootN x (concat_codes dict xs ++ extra) hget hleaf hp]
    rw [ih extra hxs]
    cases decodeLoop nodes rootN rootN extra <;> simp

theorem decodeLoop_midWalk {nodes : List Node} {rootN : Node} :
    ∀ (bits : List Bool) (cur : Node), midWalk nodes cur bits = true →
      decodeLoop nodes rootN cur bits = some [] := by
  intro bits
  induction bits with
  | nil => intro cur _; rfl
  | cons b bs ih =>
    intro cur h
    simp only [midWalk] at h
    by_cases hneg : (if b then cur.right else cur.left) < 0
    · rw [if_pos hneg] at h; exact Bool.noConfusion h
    · rw [if_neg hneg] at h
      cases hm : nodes[(if b then cur.right else cur.left).toNat]? with
      | none => rw [hm] at h; exact Bool.noConfusion h
      | some n =>
        rw [hm] at h
        simp only [Bool.and_eq_true, Bool.not_eq_true'] at h
        obtain ⟨hnl, hmw⟩ := h
        simp only [decodeLoop]
        rw [if_neg hneg]
        simp only [hm, hnl, Bool.false_eq_true, if_false]
        exact ih n hmw

/-! ### The merge loop -/

theorem merge_loop_short (fuel : Nat) (arena : List NodeWithCount) (q : List Nat)
    (h : q.length ≤ 1) : merge_loop fuel arena q = arena := by
  cases fuel with
  | zero => rfl
  | succ fuel => simp [merge_loop, if_pos h]

theorem wfArena_snoc {nodes : List Node} {x : Node} (hwf : WFArena nodes)
    (hx : x.isLeaf = false →
      (x.left = -1 ∨ (0 ≤ x.left ∧ x.left.toNat < nodes.length)) ∧
      (x.right = -1 ∨ (0 ≤ x.right ∧ x.right.toNat < nodes.length))) :
    WFArena (nodes ++ [x]) := by
  intro i n hget hleaf
  by_cases hi : i < nodes.length
  · rw [List.getElem?_append, if_pos hi] at hget
    exact hwf i n hget hleaf
  · have hlen : i < nodes.length + 1 := by
      have := getElem?_some_lt hget
      simpa using this
    have hieq : i = nodes.length := by omega
    subst hieq
    rw [getElem?_concat_self] at hget
    have hxn : x = n := Option.some.inj hget
    subst hxn
    exact hx hleaf

theorem wfArena_leaves (counts : Nat → Nat) :
    WFArena ((make_leaf_nodes counts).map NodeWithCount.node) := by
  intro i n hget hleaf
  exfalso
  have hmem := mem_of_getElem?_some hget
  simp only [make_leaf_nodes, List.map_map, List.mem_map] at hmem
  obtain ⟨b, _, hb⟩ := hmem
  rw [← hb] at hleaf
  simp [Node.isLeaf] at hleaf

theorem merge_loop_spec :
    ∀ (fuel : Nat) (arena : List NodeWithCount) (q : List Nat),
      2 ≤ q.length → q.length ≤ fuel + 1 →
      (∀ i ∈ q, i < arena.length) →
      WFArena (arena.map NodeWithCount.node) →
      (merge_loop fuel arena q).length = arena.length + (q.length - 1) ∧
      WFArena ((merge_loop fuel arena q).map NodeWithCount.node) ∧
      (∃ n, ((merge_loop fuel arena q).map NodeWithCount.node)[
          (merge_loop fuel arena q).length - 1]? = some n ∧ n.isLeaf = false) ∧
      (∀ s : Nat,
        (∃ i ∈ q, ∃ p, PathTo (arena.map NodeWithCount.node) i p s) →
        ∃ p, PathTo ((merge_loop fuel arena q).map NodeWithCount.node)
          ((merge_loop fuel arena q).length - 1) p s) := by
  intro fuel
  induction fuel with
  | zero => intro arena q h2 hf _ _; omega
  | succ fuel ih =>
    intro arena q h2 hf hq hwf
    have hq1 : ¬ q.length ≤ 1 := by omega
    obtain ⟨pr1, hpop1⟩ : ∃ pr, popMin (arenaCount arena) q = some pr := by
      cases hp : popMin (arenaCount arena) q with
      | none =>
        exfalso
        have := popMin_eq_none.mp hp
        rw [this] at h2
        simp at h2
      | some pr => exact ⟨pr, rfl⟩
    obtain ⟨b1, q1⟩ := pr1
    have hperm1 := popMin_perm hpop1
    have hlen1 : q1.length = q.length - 1 := by
      have h := hperm1.length_eq
      simp at h
      omega
    obtain ⟨pr2, hpop2⟩ : ∃ pr, popMin (arenaCount arena) q1 = some pr := by
      cases hp : popMin (arenaCount arena) q1 with
      | none =>
        exfalso
        have he := popMin_eq_none.mp hp
        rw [he] at hlen1
        simp at hlen1
        omega
      | some pr => exact ⟨pr, rfl⟩
    obtain ⟨b2, q2⟩ := pr2
    have hperm2 := popMin_perm hpop2
    have hlen2 : q2.length = q.length - 2 := by
      have h := hperm2.length_eq
      simp at h
      omega
    have hb1q : b1 ∈ q := hperm1.mem_iff.mpr (List.mem_cons_self _ _)
    have hb2q : b2 ∈ q := hperm1.mem_iff.mpr
      (List.mem_cons_of_mem _ (hperm2.mem_iff.mpr (List.mem_cons_self _ _)))
    have hb1len : b1 < arena.length := hq b1 hb1q
    have hb2len : b2 < arena.length := hq b2 hb2q
    have hunfold : merge_loop (fuel + 1) arena q =
        merge_loop fuel
          (arena ++ [⟨⟨(b1 : Int), (b2 : Int), 0⟩,
            arenaCount arena b1 + arenaCount arena b2⟩])
          (q2 ++ [arena.length]) := by
      simp only [merge_loop, hpop1, hpop2, if_neg hq1]
    rw [hunfold]
    have hnodemap : (arena ++ [(⟨⟨(b1 : Int), (b2 : Int), 0⟩,
          arenaCount arena b1 + arenaCount arena b2⟩ : NodeWithCount)]).map
          NodeWithCount.node
        = arena.map NodeWithCount.node ++ [⟨(b1 : Int), (b2 : Int), 0⟩] := by
      simp
    have hnewleaf : (Node.mk (b1 : Int) (b2 : Int) 0).isLeaf = false := by
      simp [Node.isLeaf]
    have hnewget : ((arena ++ [(⟨⟨(b1 : Int), (b2 : Int), 0⟩,
          arenaCount arena b1 + arenaCount arena b2⟩ : NodeWithCount)]).map
          NodeWithCount.node)[arena.length]? = some ⟨(b1 : Int), (b2 : Int), 0⟩ := by
      rw [hnodemap]
      have h := getElem?_concat_self (arena.map NodeWithCount.node)
        (⟨(b1 : Int), (b2 : Int), 0⟩ : Node)
      simpa using h
    have hwf1 : WFArena ((arena ++ [(⟨⟨(b1 : Int), (b2 : Int), 0⟩,
        arenaCount arena b1 + arenaCount arena b2⟩ : NodeWithCount)]).map
        NodeWithCount.node) := by
      rw [hnodemap]
      apply wfArena_snoc hwf
      intro _
      refine ⟨Or.inr ⟨?_, ?_⟩, Or.inr ⟨?_, ?_⟩⟩
      · show (0 : Int) ≤ (b1 : Int)
        omega
      · show ((b1 : Int)).toNat < (arena.map NodeWithCount.node).length
        simpa using hb1len
      · show (0 : Int) ≤ (b2 : Int)
        omega
      · show ((b2 : Int)).toNat < (arena.map NodeWithCount.node).length
        simpa using hb2len
    have hq' : ∀ i ∈ q2 ++ [arena.length],
        i < (arena ++ [(⟨⟨(b1 : Int), (b2 : Int), 0⟩,
          arenaCount arena b1 + arenaCount arena b2⟩ : NodeWithCount)]).length := by
      intro i hi
      rcases List.mem_append.mp hi with h | h
      · have h1 : i ∈ q1 := hperm2.mem_iff.mpr (List.mem_cons_of_mem _ h)
        have h2m : i ∈ q := hperm1.mem_iff.mpr (List.mem_cons_of_mem _ h1)
        have := hq i h2m
        simp
        omega
      · simp at h
        subst h
        simp
    have hreach : ∀ s : Nat,
        (∃ i ∈ q, ∃ p, PathTo (arena.map NodeWithCount.node) i p s) →
        ∃ i ∈ q2 ++ [arena.length], ∃ p,
          PathTo ((arena ++ [(⟨⟨(b1 : Int), (b2 : Int), 0⟩,
            arenaCount arena b1 + arenaCount arena b2⟩ : NodeWithCount)]).map
            NodeWithCount.node) i p s := by
      intro s hs
      obtain ⟨i, hiq, p, hp⟩ := hs
      have hp1 : PathTo (arena.map NodeWithCount.node ++
          [⟨(b1 : Int), (b2 : Int), 0⟩]) i p s := pathTo_mono hp
      rw [← hnodemap] at hp1
      rcases List.mem_cons.mp (hperm1.mem_iff.mp hiq) with hib1 | hi1
      · subst hib1
        refine ⟨arena.length, by simp, false :: p, ?_⟩
        refine PathTo.step _ false _ _ ⟨(i : Int), (b2 : Int), 0⟩ hnewget
          (by simpa using hnewleaf) (by simp) ?_
        simpa using hp1
      · rcases List.mem_cons.mp (hperm2.mem_iff.mp hi1) with hib2 | hi2
        · subst hib2
          refine ⟨arena.length, by simp, true :: p, ?_⟩
          refine PathTo.step _ true _ _ ⟨(b1 : Int), (i : Int), 0⟩ hnewget
            (by simpa using hnewleaf) (by simp) ?_
          simpa using hp1
        · exact ⟨i, List.mem_append_left _ hi2, p, hp1⟩
    by_cases hq'2 : 2 ≤ (q2 ++ [arena.length]).length
    · have hf' : (q2 ++ [arena.length]).length ≤ fuel + 1 := by
        simp only [List.length_append, List.length_singleton]
        omega
      obtain ⟨ihlen, ihwf, ihroot, ihreach⟩ := ih _ _ hq'2 hf' hq' hwf1
      refine ⟨?_, ihwf, ihroot, ?_⟩
      · rw [ihlen]
        simp only [List.length_append, List.length_singleton]
        omega
      · intro s hs
        exact ihreach s (hreach s hs)
    · have hql : q.length = 2 := by
        simp only [List.length_append, List.length_singleton] at hq'2
        omega
      have hq'1 : (q2 ++ [arena.length]).length ≤ 1 := by
        simp only [List.length_append, List.length_singleton]
        omega
      rw [merge_loop_short fuel _ _ hq'1]
      have hq2nil : q2 = [] := List.length_eq_zero.mp (by omega)
      refine ⟨by simp; omega, hwf1, ⟨⟨(b1 : Int), (b2 : Int), 0⟩, ?_, hnewleaf⟩, ?_⟩
      · have h : (arena ++ [(⟨⟨(b1 : Int), (b2 : Int), 0⟩,
            arenaCount arena b1 + arenaCount arena b2⟩ : NodeWithCount)]).length - 1
            = arena.length := by simp
        rw [h]
        exact hnewget
      · intro s hs
        obtain ⟨i, hi, p, hp⟩ := hreach s hs
        rw [hq2nil] at hi
        simp at hi
        subst hi
        have h : (arena ++ [(⟨⟨(b1 : Int), (b2 : Int), 0⟩,
            arenaCount arena b1 + arenaCount arena b2⟩ : NodeWithCount)]).length - 1
            = arena.length := by simp
        rw [h]
        exact ⟨p, hp⟩

/-! ### init_tree: the three construction cases -/

theorem mem_presentList {input : List Nat} {x : Nat} (hx : x ∈ input) (hlt : x < 256) :
    x ∈ (List.range 256).filter (fun b => count_bytes input b != 0) := by
  rw [List.mem_filter]
  refine ⟨List.mem_range.mpr hlt, ?_⟩
  simp only [count_bytes_eq_count, bne_iff_ne, ne_eq, List.count_eq_zero]
  simp [hx]

theorem make_leaf_nodes_length (input : List Nat) :
    (make_leaf_nodes (count_bytes input)).length = numDistinct input := by
  simp [make_leaf_nodes, numDistinct]

theorem make_leaf_nodes_get {counts : Nat → Nat} {i : Nat}
    (hi : i < (make_leaf_nodes counts).length) :
    ∃ b, ((List.range 256).filter (fun x => counts x != 0))[i]? = some b ∧
      (make_leaf_nodes counts)[i]? = some ⟨⟨-1, -1, b⟩, counts b⟩ ∧
      counts b ≠ 0 := by
  have hlen : (make_leaf_nodes counts).length
      = ((List.range 256).filter (fun x => counts x != 0)).length := by
    simp [make_leaf_nodes]
  obtain ⟨b, hb⟩ := exists_getElem?_of_lt
    (show i < ((List.range 256).filter (fun x => counts x != 0)).length by omega)
  refine ⟨b, hb, ?_, ?_⟩
  · simp [make_leaf_nodes, hb]
  · have hm := mem_of_getElem?_some hb
    rw [List.mem_filter] at hm
    simpa using hm.2

theorem init_tree_queue (input : List Nat) :
    (List.range (make_leaf_nodes (count_bytes input)).length).filter
      (fun i => arenaCount (make_leaf_nodes (count_bytes input)) i != 0)
      = List.range (make_leaf_nodes (count_bytes input)).length := by
  apply List.filter_eq_self.mpr
  intro i hi
  rw [List.mem_range] at hi
  obtain ⟨b, _, hget, hcount⟩ := make_leaf_nodes_get hi
  simp [arenaCount, hget]
  exact hcount

theorem init_tree_eq_k0 (input : List Nat) (h : numDistinct input = 0) :
    init_tree input = some [⟨-1, -1, 0⟩] := by
  simp only [init_tree]
  rw [init_tree_queue input]
  simp only [List.length_range, make_leaf_nodes_length, h]
  simp

theorem init_tree_eq_k1 (input : List Nat) (h : numDistinct input = 1) :
    init_tree input = input.head?.map (fun v => [⟨-1, -1, v⟩, ⟨-1, 0, 0⟩]) := by
  simp only [init_tree]
  rw [init_tree_queue input]
  simp only [List.length_range, make_leaf_nodes_length, h]
  simp

theorem init_tree_eq_big (input : List Nat) (h : 2 ≤ numDistinct input) :
    init_tree input = some ((merge_loop (numDistinct input)
      (make_leaf_nodes (count_bytes input))
      (List.range (numDistinct input))).map NodeWithCount.node) := by
  simp only [init_tree]
  rw [init_tree_queue input]
  simp only [List.length_range, make_leaf_nodes_length]
  rw [if_neg (by omega), if_neg (by omega)]

theorem init_tree_spec (input : List Nat) (h256 : ∀ b ∈ input, b < 256) :
    ∃ nodes, init_tree input = some nodes ∧
      1 ≤ nodes.length ∧
      WFArena nodes ∧
      nodes.length = (if numDistinct input = 0 then 1
        else if numDistinct input = 1 then 2 else 2 * numDistinct input - 1) ∧
      (∀ x ∈ input, ∃ p, PathTo nodes (nodes.length - 1) p x) ∧
      (input ≠ [] → ∃ rootN, nodes[nodes.length - 1]? = some rootN ∧
        rootN.isLeaf = false) := by
  by_cases hk0 : numDistinct input = 0
  · have hempty : input = [] := by
      cases input with
      | nil => rfl
      | cons x xs =>
        exfalso
        have hx := mem_presentList (List.mem_cons_self x xs)
          (h256 x (List.mem_cons_self x xs))
        have hk0' : ((List.range 256).filter
            (fun b => count_bytes (x :: xs) b != 0)).length = 0 := hk0
        rw [List.length_eq_zero.mp hk0'] at hx
        simp at hx
    refine ⟨[⟨-1, -1, 0⟩], init_tree_eq_k0 input hk0, by simp, ?_, by simp [hk0], ?_, ?_⟩
    · intro i n hget hleaf
      have hmem := mem_of_getElem?_some hget
      simp at hmem
      subst hmem
      simp [Node.isLeaf] at hleaf
    · intro x hx
      rw [hempty] at hx
      simp at hx
    · intro hne
      exact absurd hempty hne
  by_cases hk1 : numDistinct input = 1
  · have hk1' : ((List.range 256).filter
        (fun b => count_bytes input b != 0)).length = 1 := hk1
    obtain ⟨V, hPV⟩ := List.length_eq_one.mp hk1'
    have hVmem : V ∈ (List.range 256).filter (fun b => count_bytes input b != 0) := by
      rw [hPV]
      exact List.mem_singleton.mpr rfl
    have hVcount : count_bytes input V ≠ 0 := by
      have h := (List.mem_filter.mp hVmem).2
      simpa using h
    have hVin : V ∈ input := by
      by_contra hnot
      rw [count_bytes_eq_count] at hVcount
      exact hVcount (List.count_eq_zero.mpr hnot)
    have hallV : ∀ x ∈ input, x = V := by
      intro x hx
      have hm := mem_presentList hx (h256 x hx)
      rw [hPV] at hm
      simpa using hm
    have hne : input ≠ [] := by
      intro h
      rw [h] at hVin
      simp at hVin
    have hhead : input.head? = some V := by
      cases input with
      | nil => exact absurd rfl hne
      | cons w ws => simp [hallV w (List.mem_cons_self w ws)]
    have hinit : init_tree input = some [⟨-1, -1, V⟩, ⟨-1, 0, 0⟩] := by
      rw [init_tree_eq_k1 input hk1, hhead]
      rfl
    refine ⟨[⟨-1, -1, V⟩, ⟨-1, 0, 0⟩], hinit, by simp, ?_, by simp [hk0, hk1], ?_, ?_⟩
    · intro i n hget hleaf
      match i with
      | 0 =>
        simp only [List.getElem?_cons_zero] at hget
        rw [← Option.some.inj hget] at hleaf
        simp [Node.isLeaf] at hleaf
      | 1 =>
        simp only [List.getElem?_cons_succ, List.getElem?_cons_zero] at hget
        rw [← Option.some.inj hget]
        decide
      | (i + 2) =>
        simp at hget
    · intro x hx
      rw [hallV x hx]
      refine ⟨[true], ?_⟩
      refine PathTo.step 1 true [] V ⟨-1, 0, 0⟩ rfl (by decide) (by decide) ?_
      exact PathTo.leaf 0 V ⟨-1, -1, V⟩ rfl (by simp [Node.isLeaf]) rfl
    · intro _
      exact ⟨⟨-1, 0, 0⟩, rfl, by decide⟩
  · have hk2 : 2 ≤ numDistinct input := by omega
    have hinit := init_tree_eq_big input hk2
    obtain ⟨hlen, hwfA, hroot, hreach⟩ := merge_loop_spec (numDistinct input)
      (make_leaf_nodes (count_bytes input)) (List.range (numDistinct input))
      (by rw [List.length_range]; omega)
      (by rw [List.length_range]; omega)
      (fun i hi => by
        rw [make_leaf_nodes_length]
        exact List.mem_range.mp hi)
      (wfArena_leaves _)
    refine ⟨_, hinit, ?_, hwfA, ?_, ?_, ?_⟩
    · simp only [List.length_map]
      rw [hlen, List.length_range, make_leaf_nodes_length]
      omega
    · rw [if_neg hk0, if_neg hk1]
      simp only [List.length_map]
      rw [hlen, List.length_range, make_leaf_nodes_length]
      omega
    · intro x hx
      have hxm := mem_presentList hx (h256 x hx)
      obtain ⟨j, hj⟩ := exists_getElem?_of_mem hxm
      have hjlt : j < ((List.range 256).filter
          (fun b => count_bytes input b != 0)).length := getElem?_some_lt hj
      have hnwcget : ((make_leaf_nodes (count_bytes input)).map
          NodeWithCount.node)[j]? = some ⟨-1, -1, x⟩ := by
        simp [make_leaf_nodes, hj]
      have hpath0 : PathTo ((make_leaf_nodes (count_bytes input)).map
          NodeWithCount.node) j [] x :=
        PathTo.leaf j x ⟨-1, -1, x⟩ hnwcget (by simp [Node.isLeaf]) rfl
      have hjq : j ∈ List.range (numDistinct input) :=
        List.mem_range.mpr (show j < numDistinct input from hjlt)
      obtain ⟨p, hp⟩ := hreach x ⟨j, hjq, [], hpath0⟩
      refine ⟨p, ?_⟩
      simpa [List.length_map] using hp
    · intro _
      obtain ⟨n, hn, hnl⟩ := hroot
      refine ⟨n, ?_, hnl⟩
      simpa [List.length_map] using hn

/-! ### Assembling encode and decode -/

theorem getLast?_eq_getElem?_last {α : Type} (l : List α) :
    l.getLast? = l[l.length - 1]? := by
  induction l with
  | nil => rfl
  | cons x xs ih =>
    cases xs with
    | nil => rfl
    | cons y ys =>
      rw [List.getLast?_cons_cons, ih]
      simp [List.getElem?_cons_succ]

theorem code_table_path {nodes : List Node} {s : Nat} {p : List Bool}
    (hwf : WFArena nodes) (h1 : 1 ≤ nodes.length)
    (hp : PathTo nodes (nodes.length - 1) p s) :
    ∃ q, PathTo nodes (nodes.length - 1) q s ∧ code_table nodes s = q := by
  have h0 : (0 : Int) ≤ ((nodes.length - 1 : Nat) : Int) := by omega
  have hfuel : (((nodes.length - 1 : Nat) : Int)).toNat < nodes.length := by
    simp
    omega
  have hp' : PathTo nodes ((((nodes.length - 1 : Nat) : Int)).toNat) p s := by
    simpa using hp
  obtain ⟨q, hq, heq⟩ := init_dict_complete nodes.length nodes
    ((nodes.length - 1 : Nat) : Int) (fun _ => []) [] p s hwf h0 hfuel hp'
  refine ⟨q, by simpa using hq, ?_⟩
  simp only [code_table]
  simpa using heq

theorem encode_spec (input : List Nat) (h256 : ∀ b ∈ input, b < 256) :
    ∃ nodes, init_tree input = some nodes ∧
      Encoded.encode input = some ⟨concat_codes (code_table nodes) input, nodes⟩ ∧
      1 ≤ nodes.length ∧
      WFArena nodes ∧
      nodes.length = (if numDistinct input = 0 then 1
        else if numDistinct input = 1 then 2 else 2 * numDistinct input - 1) ∧
      (∀ x ∈ input, ∃ p, PathTo nodes (nodes.length - 1) p x ∧
        code_table nodes x = p) ∧
      (input ≠ [] → ∃ rootN, nodes[nodes.length - 1]? = some rootN ∧
        rootN.isLeaf = false) := by
  obtain ⟨nodes, hinit, h1, hwf, hlen, hreach, hroot⟩ := init_tree_spec input h256
  refine ⟨nodes, hinit, ?_, h1, hwf, hlen, ?_, hroot⟩
  · simp [Encoded.encode, hinit, init_binary_data_eq]
  · intro x hx
    obtain ⟨p, hp⟩ := hreach x hx
    exact code_table_path hwf h1 hp

theorem decode_concat_extra {nodes : List Node} {input : List Nat}
    (h1 : 1 ≤ nodes.length)
    (hroot : input ≠ [] → ∃ rootN, nodes[nodes.length - 1]? = some rootN ∧
      rootN.isLeaf = false)
    (htable : ∀ x ∈ input, ∃ p, PathTo nodes (nodes.length - 1) p x ∧
      code_table nodes x = p)
    (extra : List Bool)
    (hx : ∀ rootN, nodes.getLast? = some rootN →
      decodeLoop nodes rootN rootN extra = some []) :
    Encoded.decode ⟨concat_codes (code_table nodes) input ++ extra, nodes⟩
      = some input := by
  obtain ⟨rootN0, hrootN0⟩ := exists_getElem?_of_lt
    (show nodes.length - 1 < nodes.length by omega)
  have hlastg : nodes.getLast? = some rootN0 := by
    rw [getLast?_eq_getElem?_last nodes]
    exact hrootN0
  simp only [Encoded.decode, Encoded.root, hlastg, Option.bind_eq_bind,
    Option.some_bind]
  cases input with
  | nil =>
    simp only [concat_codes, List.nil_append]
    exact hx rootN0 hlastg
  | cons x xs =>
    obtain ⟨rootN, hrootN, hrleaf⟩ := hroot (by simp)
    rw [hrootN0] at hrootN
    have hr0 := Option.some.inj hrootN
    subst hr0
    rw [decodeLoop_concat hrootN0 hrleaf (x :: xs) extra htable]
    rw [hx rootN0 hlastg]
    simp

theorem code_path_nonempty {nodes : List Node} {p : List Bool} {s : Nat}
    (hroot : ∃ rootN, nodes[nodes.length - 1]? = some rootN ∧ rootN.isLeaf = false)
    (hp : PathTo nodes (nodes.length - 1) p s) : p ≠ [] := by
  intro he
  subst he
  obtain ⟨n, hn, hl, _⟩ := pathTo_nil_leaf hp
  obtain ⟨rootN, hr, hrl⟩ := hroot
  rw [hn] at hr
  rw [← Option.some.inj hr] at hrl
  rw [hl] at hrl
  exact Bool.noConfusion hrl

theorem code_table_prefix_free {nodes : List Node} {a b : Nat}
    (hpa : ∃ p, PathTo nodes (nodes.length - 1) p a ∧ code_table nodes a = p)
    (hpb : ∃ p, PathTo nodes (nodes.length - 1) p b ∧ code_table nodes b = p)
    (hab : a ≠ b) :
    ¬ PrefixOf (code_table nodes a) (code_table nodes b) := by
  obtain ⟨p, hp, hpe⟩ := hpa
  obtain ⟨q, hq, hqe⟩ := hpb
  intro hpre
  obtain ⟨t, ht⟩ := hpre
  rw [hpe, hqe] at ht
  rw [← ht] at hq
  have hte : t = [] := pathTo_no_ext hp hq
  subst hte
  rw [List.append_nil] at hq
  exact hab (pathTo_det hp hq)

/-! ### The single symbol case -/

theorem filter_range_singleton {N V : Nat} {p : Nat → Bool} (hV : V < N)
    (hp : ∀ b, p b = true ↔ b = V) :
    (List.range N).filter p = [V] := by
  induction N with
  | zero => omega
  | succ N ih =>
    rw [List.range_succ, List.filter_append]
    by_cases hVN : V = N
    · have h1 : (List.range N).filter p = [] := by
        apply List.filter_eq_nil.mpr
        intro a ha
        rw [List.mem_range] at ha
        rw [hp a]
        omega
      rw [h1]
      have h2 : p N = true := (hp N).mpr hVN.symm
      simp [h2, hVN]
    · have h1 : (List.range N).filter p = [V] := ih (by omega)
      rw [h1]
      have h2 : p N = false := by
        cases hpn : p N with
        | false => rfl
        | true => exact absurd ((hp N).mp hpn) (fun he => hVN he.symm)
      simp [h2]

theorem numDistinct_replicate (n V : Nat) (hn : 1 ≤ n) (hV : V < 256) :
    (List.range 256).filter
      (fun b => count_bytes (List.replicate n V) b != 0) = [V] := by
  apply filter_range_singleton hV
  intro b
  simp only [bne_iff_ne, ne_eq, count_bytes_eq_count]
  constructor
  · intro h
    have hb : b ∈ List.replicate n V := by
      by_contra hnb
      exact h (List.count_eq_zero.mpr hnb)
    exact (List.mem_replicate.mp hb).2
  · intro h
    intro hc
    rw [List.count_eq_zero] at hc
    exact hc (List.mem_replicate.mpr ⟨by omega, h⟩)

theorem code_table_single (V : Nat) :
    code_table [⟨-1, -1, V⟩, ⟨-1, 0, 0⟩] V = [true] := by
  simp [code_table, init_dict, setDict, Node.isLeaf]

theorem concat_codes_replicate (dict : CharDictT) (n V : Nat)
    (h : dict V = [true]) :
    concat_codes dict (List.replicate n V) = List.replicate n true := by
  induction n with
  | zero => rfl
  | succ m ih => simp [List.replicate_succ, concat_codes, h, ih]

/-! ### The claims -/

/-- Claim C1: for every byte sequence X, including the empty sequence and
sequences containing every byte value, decoding the artifact produced by
encode(X) returns exactly X. -/
theorem claim_C1_round_trip (input : List Nat) (h256 : ∀ b ∈ input, b < 256) :
    (Encoded.encode input).bind Encoded.decode = some input := by
  obtain ⟨nodes, _, henc, h1, hwf, _, htable, hroot⟩ := encode_spec input h256
  rw [henc]
  simp only [Option.some_bind]
  have hd := decode_concat_extra h1 hroot htable [] (fun rootN _ => rfl)
  simpa using hd

/-- Witness for C1 at a concrete input holding the extreme byte values. -/
theorem claim_C1_witness :
    (Encoded.encode [0, 255, 7, 7]).bind Encoded.decode = some [0, 255, 7, 7] :=
  claim_C1_round_trip [0, 255, 7, 7] (by decide)

/-- Claim C2: the arena holds exactly 1 node if k = 0, 2 nodes if k = 1 and
2k-1 nodes if k ≥ 2 distinct byte values are present; it never exceeds 511
entries, so 16-bit signed indices suffice, and every stored child index is
either the sentinel -1 or a nonnegative index below the arena size, so the
sentinel never equals a real index. -/
theorem claim_C2_arena_size (input : List Nat) (nodes : List Node)
    (h256 : ∀ b ∈ input, b < 256) (hinit : init_tree input = some nodes) :
    nodes.length = (if numDistinct input = 0 then 1
      else if numDistinct input = 1 then 2 else 2 * numDistinct input - 1) ∧
    nodes.length ≤ 511 ∧
    (∀ (i : Nat) (n : Node), nodes[i]? = some n →
      (n.left = -1 ∨ (0 ≤ n.left ∧ n.left.toNat < nodes.length)) ∧
      (n.right = -1 ∨ (0 ≤ n.right ∧ n.right.toNat < nodes.length))) := by
  obtain ⟨nodes2, hinit2, h1, hwf, hlen, _, _⟩ := init_tree_spec input h256
  rw [hinit2] at hinit
  have he := Option.some.inj hinit
  subst he
  have hk : numDistinct input ≤ 256 := by
    have h := List.length_filter_le
      (fun b => count_bytes input b != 0) (List.range 256)
    simpa [numDistinct] using h
  refine ⟨hlen, ?_, ?_⟩
  · rw [hlen]
    split
    · omega
    · split <;> omega
  · intro i n hget
    by_cases hl : n.isLeaf
    · have h := hl
      simp [Node.isLeaf] at h
      exact ⟨Or.inl h.1, Or.inl h.2⟩
    · have hb := hwf i n hget (by simpa using hl)
      have hi := getElem?_some_lt hget
      refine ⟨?_, ?_⟩
      · rcases hb.1 with h | ⟨ha, hc⟩
        · exact Or.inl h
        · exact Or.inr ⟨ha, by omega⟩
      · rcases hb.2 with h | ⟨ha, hc⟩
        · exact Or.inl h
        · exact Or.inr ⟨ha, by omega⟩

/-- Witness for C2 on the "abb" input, k = 2, arena size 3. -/
theorem claim_C2_witness :
    ([(⟨-1, -1, 97⟩ : Node), ⟨-1, -1, 98⟩, ⟨0, 1, 0⟩] : List Node).length
      = (if numDistinct [97, 98, 98] = 0 then 1
        else if numDistinct [97, 98, 98] = 1 then 2
        else 2 * numDistinct [97, 98, 98] - 1) ∧
    ([(⟨-1, -1, 97⟩ : Node), ⟨-1, -1, 98⟩, ⟨0, 1, 0⟩] : List Node).length ≤ 511 :=
  ⟨(claim_C2_arena_size [97, 98, 98] [⟨-1, -1, 97⟩, ⟨-1, -1, 98⟩, ⟨0, 1, 0⟩]
      (by decide) (by decide)).1,
    (claim_C2_arena_size [97, 98, 98] [⟨-1, -1, 97⟩, ⟨-1, -1, 98⟩, ⟨0, 1, 0⟩]
      (by decide) (by decide)).2.1⟩

/-- Claim C3: for k ≥ 2 distinct byte values, the code table derived from the
finished tree assigns a nonempty codeword to every present byte value, and no
codeword of a present value is a prefix of the codeword of a different
present value. -/
theorem claim_C3_prefix_free (input : List Nat) (nodes : List Node)
    (h256 : ∀ b ∈ input, b < 256) (hk : 2 ≤ numDistinct input)
    (hinit : init_tree input = some nodes) :
    (∀ a ∈ input, code_table nodes a ≠ []) ∧
    (∀ a ∈ input, ∀ b ∈ input, a ≠ b →
      ¬ PrefixOf (code_table nodes a) (code_table nodes b)) := by
  obtain ⟨nodes2, hinit2, h1, hwf, _, hreach, hroot⟩ := init_tree_spec input h256
  rw [hinit2] at hinit
  have he := Option.some.inj hinit
  subst he
  have hne : input ≠ [] := by
    intro h
    subst h
    have h0 : numDistinct ([] : List Nat) = 0 := by decide
    omega
  have htab : ∀ x ∈ input, ∃ p, PathTo nodes2 (nodes2.length - 1) p x ∧
      code_table nodes2 x = p := by
    intro x hx
    obtain ⟨p, hp⟩ := hreach x hx
    exact code_table_path hwf h1 hp
  constructor
  · intro a ha
    obtain ⟨p, hp, hpe⟩ := htab a ha
    rw [hpe]
    exact code_path_nonempty (hroot hne) hp
  · intro a ha b hb hab
    exact code_table_prefix_free (htab a ha) (htab b hb) hab

/-- Witness for C3 on the "abb" input: the codeword of a is not a prefix of
the codeword of b. -/
theorem claim_C3_witness :
    ¬ PrefixOf (code_table [(⟨-1, -1, 97⟩ : Node), ⟨-1, -1, 98⟩, ⟨0, 1, 0⟩] 97)
      (code_table [(⟨-1, -1, 97⟩ : Node), ⟨-1, -1, 98⟩, ⟨0, 1, 0⟩] 98) :=
  (claim_C3_prefix_free [97, 98, 98] [⟨-1, -1, 97⟩, ⟨-1, -1, 98⟩, ⟨0, 1, 0⟩]
    (by decide) (by decide) (by decide)).2 97 (by decide) 98 (by decide) (by decide)

/-- Claim C4: the bit sequence produced by encode has length equal to the
sum, over every input byte in order, of the length of its codeword in the
derived code table; the pre-sized total equals the bits written by the
sequential fill pass, which writes exactly the concatenation of the
codewords. -/
theorem claim_C4_bit_length (input : List Nat) (e : Encoded)
    (h256 : ∀ b ∈ input, b < 256) (henc : Encoded.encode input = some e) :
    e.binary_data_.length
      = (input.map (fun ch => (code_table e.nodes_ ch).length)).sum ∧
    e.binary_data_ = concat_codes (code_table e.nodes_) input := by
  obtain ⟨nodes, _, henc2, _, _, _, _, _⟩ := encode_spec input h256
  rw [henc2] at henc
  have he := Option.some.inj henc
  subst he
  exact ⟨concat_codes_length _ _, rfl⟩

/-- Witness for C4 on the "abb" input: 3 bits, one per byte codeword. -/
theorem claim_C4_witness :
    ([false, true, true] : List Bool).length
      = ([97, 98, 98].map (fun ch =>
          (code_table [(⟨-1, -1, 97⟩ : Node), ⟨-1, -1, 98⟩, ⟨0, 1, 0⟩]
            ch).length)).sum :=
  (claim_C4_bit_length [97, 98, 98]
    ⟨[false, true, true], [⟨-1, -1, 97⟩, ⟨-1, -1, 98⟩, ⟨0, 1, 0⟩]⟩
    (by decide) (by decide)).1

/-- Claim C5: for an input of n ≥ 1 occurrences of the single byte value V,
the arena is [Leaf V, Internal(left = sentinel, right = 0)], the code table
assigns V the one-bit codeword [1], the bit sequence is n one-bits, and
decode returns the n occurrences of V. -/
theorem claim_C5_single_symbol (n V : Nat) (hn : 1 ≤ n) (hV : V < 256) :
    init_tree (List.replicate n V) = some [⟨-1, -1, V⟩, ⟨-1, 0, 0⟩] ∧
    code_table [⟨-1, -1, V⟩, ⟨-1, 0, 0⟩] V = [true] ∧
    Encoded.encode (List.replicate n V)
      = some ⟨List.replicate n true, [⟨-1, -1, V⟩, ⟨-1, 0, 0⟩]⟩ ∧
    Encoded.decode ⟨List.replicate n true, [⟨-1, -1, V⟩, ⟨-1, 0, 0⟩]⟩
      = some (List.replicate n V) := by
  have h256 : ∀ b ∈ List.replicate n V, b < 256 := by
    intro b hb
    rw [(List.mem_replicate.mp hb).2]
    exact hV
  have hnum : numDistinct (List.replicate n V) = 1 := by
    simp [numDistinct, numDistinct_replicate n V hn hV]
  have hhead : (List.replicate n V).head? = some V := by
    cases n with
    | zero => omega
    | succ m => simp [List.replicate_succ]
  have hinit : init_tree (List.replicate n V)
      = some [⟨-1, -1, V⟩, ⟨-1, 0, 0⟩] := by
    rw [init_tree_eq_k1 _ hnum, hhead]
    rfl
  obtain ⟨nodes, hinit2, henc, h1, hwf, _, htable, hroot⟩ := encode_spec _ h256
  rw [hinit] at hinit2
  have he := Option.some.inj hinit2
  subst he
  have hct : code_table [⟨-1, -1, V⟩, ⟨-1, 0, 0⟩] V = [true] :=
    code_table_single V
  have hconcat : concat_codes (code_table [⟨-1, -1, V⟩, ⟨-1, 0, 0⟩])
      (List.replicate n V) = List.replicate n true :=
    concat_codes_replicate _ n V hct
  refine ⟨hinit, hct, ?_, ?_⟩
  · rw [henc, hconcat]
  · have hd := decode_concat_extra h1 hroot htable [] (fun rootN _ => rfl)
    rw [hconcat] at hd
    simpa using hd

/-- Witness for C5 at n = 3, V = 97. -/
theorem claim_C5_witness :
    init_tree (List.replicate 3 97) = some [⟨-1, -1, 97⟩, ⟨-1, 0, 0⟩] ∧
    code_table [⟨-1, -1, 97⟩, ⟨-1, 0, 0⟩] 97 = [true] ∧
    Encoded.encode (List.replicate 3 97)
      = some ⟨List.replicate 3 true, [⟨-1, -1, 97⟩, ⟨-1, 0, 0⟩]⟩ ∧
    Encoded.decode ⟨List.replicate 3 true, [⟨-1, -1, 97⟩, ⟨-1, 0, 0⟩]⟩
      = some (List.replicate 3 97) :=
  claim_C5_single_symbol 3 97 (by decide) (by decide)

/-- Claim C6: tree construction repeatedly removes the two least-count active
nodes, A first then B, appends an internal node with left = A, right = B and
the summed count, until one active node remains, the root being the last
arena index; the queue pop returns a minimal-count element and removes
exactly one occurrence of it; on the "abb" input (counts a = 1, b = 2) the
code table maps a to [0] and b to [1], the arena root is the appended
internal node with left pointing at the leaf of a, and the bit sequence is
[0, 1, 1]. -/
theorem claim_C6_merge (cnt : Nat → Nat) (q : List Nat) (m : Nat)
    (rest : List Nat) (hpop : popMin cnt q = some (m, rest)) :
    (m ∈ q ∧ (∀ y ∈ q, cnt m ≤ cnt y) ∧ q.Perm (m :: rest)) ∧
    (init_tree [97, 98, 98]
        = some [⟨-1, -1, 97⟩, ⟨-1, -1, 98⟩, ⟨0, 1, 0⟩] ∧
      code_table [(⟨-1, -1, 97⟩ : Node), ⟨-1, -1, 98⟩, ⟨0, 1, 0⟩] 97 = [false] ∧
      code_table [(⟨-1, -1, 97⟩ : Node), ⟨-1, -1, 98⟩, ⟨0, 1, 0⟩] 98 = [true] ∧
      Encoded.encode [97, 98, 98]
        = some ⟨[false, true, true],
            [⟨-1, -1, 97⟩, ⟨-1, -1, 98⟩, ⟨0, 1, 0⟩]⟩) := by
  refine ⟨⟨?_, popMin_min hpop, popMin_perm hpop⟩, ?_, ?_, ?_, ?_⟩
  · exact (popMin_perm hpop).mem_iff.mpr (List.mem_cons_self _ _)
  · decide
  · decide
  · decide
  · decide

/-- Witness for C6: popping from the queue [5, 3] under the identity count
returns 3 with remainder [5]. -/
theorem claim_C6_witness :
    ((3 ∈ [5, 3] ∧ (∀ y ∈ [5, 3], id 3 ≤ id y) ∧ ([5, 3] : List Nat).Perm [3, 5]) ∧
      (init_tree [97, 98, 98]
          = some [⟨-1, -1, 97⟩, ⟨-1, -1, 98⟩, ⟨0, 1, 0⟩] ∧
        code_table [(⟨-1, -1, 97⟩ : Node), ⟨-1, -1, 98⟩, ⟨0, 1, 0⟩] 97 = [false] ∧
        code_table [(⟨-1, -1, 97⟩ : Node), ⟨-1, -1, 98⟩, ⟨0, 1, 0⟩] 98 = [true] ∧
        Encoded.encode [97, 98, 98]
          = some ⟨[false, true, true],
              [⟨-1, -1, 97⟩, ⟨-1, -1, 98⟩, ⟨0, 1, 0⟩]⟩)) :=
  claim_C6_merge id [5, 3] 3 [5] (by decide)

/-- Claim C7: decoding an artifact whose bit sequence is exhausted
mid-codeword emits no partial symbol and raises no error: appending extra
bits that keep the walk strictly inside the tree to an encoded bit sequence,
decode returns exactly the symbols whose codewords were fully consumed and
silently drops the incomplete remainder. -/
theorem claim_C7_truncated (input : List Nat) (e : Encoded) (rootN : Node)
    (extra : List Bool) (h256 : ∀ b ∈ input, b < 256)
    (henc : Encoded.encode input = some e)
    (hroot : e.nodes_.getLast? = some rootN)
    (hne : extra ≠ [])
    (hmid : midWalk e.nodes_ rootN extra = true) :
    Encoded.decode ⟨e.binary_data_ ++ extra, e.nodes_⟩ = some input := by
  obtain ⟨nodes, hinit, henc2, h1, hwf, _, htable, hroota⟩ := encode_spec input h256
  rw [henc2] at henc
  have he := Option.some.inj henc
  subst he
  have hroot' : nodes.getLast? = some rootN := hroot
  have hmid' : midWalk nodes rootN extra = true := hmid
  have hd := decode_concat_extra h1 hroota htable extra (fun rootN2 hroot2 => by
    rw [hroot'] at hroot2
    rw [← Option.some.inj hroot2]
    exact decodeLoop_midWalk extra rootN hmid')
  exact hd

/-- Witness for C7: input [0,0,1,2] with one extra bit that stops inside the
tree; the decoder returns the four fully decoded symbols. -/
theorem claim_C7_witness :
    Encoded.decode ⟨[false, false, true, false, true, true] ++ [true],
      [⟨-1, -1, 0⟩, ⟨-1, -1, 1⟩, ⟨-1, -1, 2⟩, ⟨1, 2, 0⟩, ⟨0, 3, 0⟩]⟩
      = some [0, 0, 1, 2] :=
  claim_C7_truncated [0, 0, 1, 2]
    ⟨[false, false, true, false, true, true],
      [⟨-1, -1, 0⟩, ⟨-1, -1, 1⟩, ⟨-1, -1, 2⟩, ⟨1, 2, 0⟩, ⟨0, 3, 0⟩]⟩
    ⟨0, 3, 0⟩ [true] (by decide) (by decide) (by decide) (by decide) (by decide)

/-- Claim C8: encode is total on every byte sequence including the empty one,
and decode is total on every encode-produced artifact: its walk never follows
the sentinel -1 and never reads out of bounds, both of which are modelled as
none. -/
theorem claim_C8_total (input : List Nat) (h256 : ∀ b ∈ input, b < 256) :
    ∃ e out, Encoded.encode input = some e ∧ Encoded.decode e = some out := by
  obtain ⟨nodes, _, henc, h1, _, _, htable, hroot⟩ := encode_spec input h256
  refine ⟨_, input, henc, ?_⟩
  have hd := decode_concat_extra h1 hroot htable [] (fun rootN _ => rfl)
  simpa using hd

/-- Witness for C8 at a small concrete input. -/
theorem claim_C8_witness :
    ∃ e out, Encoded.encode [5, 6, 7] = some e ∧ Encoded.decode e = some out :=
  claim_C8_total [5, 6, 7] (by decide)

/-- Claim C9: the four encode entry points produce identical artifacts when
applied to the same underlying bytes: the raw pointer and std::byte span
overloads forward to the uint8 span overload unchanged, and the string_view
overload encodes its chars reinterpreted as unsigned bytes (mod 256). -/
theorem claim_C9_adapters (bytes : List Nat) (chars : List Int)
    (hchars : chars.map (fun c => (c % 256).toNat) = bytes) :
    Encoded.encode_raw bytes = Encoded.encode bytes ∧
    Encoded.encode_byte_span bytes = Encoded.encode bytes ∧
    Encoded.encode_string_view chars = Encoded.encode bytes := by
  refine ⟨rfl, rfl, ?_⟩
  simp only [Encoded.encode_string_view, Encoded.encode_raw]
  rw [hchars]

/-- Witness for C9: the char -159 reinterprets to the byte 97. -/
theorem claim_C9_witness :
    Encoded.encode_raw [97] = Encoded.encode [97] ∧
    Encoded.encode_byte_span [97] = Encoded.encode [97] ∧
    Encoded.encode_string_view [-159] = Encoded.encode [97] :=
  claim_C9_adapters [97] [-159] (by decide)

/-- Claim C10: every encode-produced artifact has at least one arena node, so
its root (the last element) exists and decode succeeds; the default
constructed Encoded has an empty arena, and its decode reads the last
element of an empty vector, which is undefined behaviour, modelled as
none — so the guarantee is conditional on the artifact coming from encode. -/
theorem claim_C10_default (input : List Nat) (e : Encoded)
    (h256 : ∀ b ∈ input, b < 256) (henc : Encoded.encode input = some e) :
    (1 ≤ e.nodes_.length ∧ ∃ out, Encoded.decode e = some out) ∧
    defaultEncoded.nodes_.length = 0 ∧ Encoded.decode defaultEncoded = none := by
  obtain ⟨nodes, _, henc2, h1, _, _, htable, hroot⟩ := encode_spec input h256
  rw [henc2] at henc
  have he := Option.some.inj henc
  subst he
  refine ⟨⟨h1, input, ?_⟩, rfl, rfl⟩
  have hd := decode_concat_extra h1 hroot htable [] (fun rootN _ => rfl)
  simpa using hd

/-- Witness for C10 at the single-byte input [3]. -/
theorem claim_C10_witness :
    (1 ≤ ([(⟨-1, -1, 3⟩ : Node), ⟨-1, 0, 0⟩] : List Node).length ∧
      ∃ out, Encoded.decode ⟨[true], [⟨-1, -1, 3⟩, ⟨-1, 0, 0⟩]⟩ = some out) ∧
    defaultEncoded.nodes_.length = 0 ∧ Encoded.decode defaultEncoded = none :=
  claim_C10_default [3] ⟨[true], [⟨-1, -1, 3⟩, ⟨-1, 0, 0⟩]⟩
    (by decide) (by decide)

end Huffman
